import Mathlib

/-!
# Verification of the calculator pipeline in `src/calc.py`

This file embeds the three-stage pipeline of `calc.py` — lexical analysis
(`Lexer.tokenize`), recursive-descent parsing (`Parser.parse_expr` /
`parse_term` / `parse_factor` / `parse_binop` / `eat` / `eat_whitespace`),
and tree-walking evaluation (`Calculator.visit_*`) — and proves the frozen
claims about it.

Modelling choices:

* Python's lazy generator `Lexer.tokenize` is embedded by its single-step
  match function `nextTok`, which implements the anchored ordered
  regex alternation of `Parser.__init__`'s lexeme table.  The parser holds
  the generator's cursor as the not-yet-scanned suffix of the input, so
  tokens are produced exactly on demand, as in the Python generator.
* Python numbers are modelled by `Value`: an `int` (arbitrary precision,
  `Int`) or a `float`.  Floats are modelled as rationals; every float
  value appearing in the claims (e.g. `2.5`) is exactly representable in
  binary64, so the model agrees with Python on all inputs used here.
* Exceptions are modelled by `Except Err`; `Err` distinguishes the
  `TokenizerException` (with the stopping offset, input length and input
  text of the Python message), the two `SyntaxError` forms raised by
  `eat` and `parse_factor`, `ZeroDivisionError`, `StopIteration`
  escaping `Parser.parse` on empty input, `KeyError` from the operator
  table, and `NameError` from `calc`'s unresolved `Evaluator`.
* The mutually recursive descent is embedded as one fuel-indexed step
  function `parseRun`; `evaluate` supplies fuel `3 * length + 3`,
  which is proved sufficient for every grammar-conforming input in the
  completeness theorem for claim C9 (the recursion of the Python parser
  descends at most three grammar levels per consumed character).
-/

/-- A token: `Token(name, value)` in `calc.py` (lines 9-22).  The Python
`value` is the matched text (or `None` for the synthetic EOF token, which we
render as `""`; the EOF value is never read). -/
structure Token where
  name : String
  value : String
deriving DecidableEq, Repr

/-- `[0-9]` of the `FLOAT`/`INTEGER` patterns. -/
def isDigitC (c : Char) : Bool := c.isDigit

/-- `\s` of the `WHITESPACE` pattern, restricted to its ASCII members
`[ \t\n\r\f\v]`; the Unicode members play no role in any claim. -/
def isSpaceC (c : Char) : Bool :=
  c = ' ' || c = '\t' || c = '\n' || c = '\r' || c = '\x0c' || c = '\x0b'

/-- Greedy match of `p+` at the head of the input: the maximal nonempty
prefix satisfying `p`, or `none`. -/
def matchPlus (p : Char → Bool) (l : List Char) : Option (List Char × List Char) :=
  let s := l.span p
  if s.1.isEmpty then none else some (s.1, s.2)

/-- Match of a single-character literal pattern at the head of the input. -/
def matchLit (c : Char) : List Char → Option (List Char × List Char)
  | x :: r => if x = c then some ([x], r) else none
  | [] => none

/-- Greedy match of the `FLOAT` pattern `[0-9]\.[0-9]+` at the head of the
input (note: exactly one digit before the dot, as in `Parser.__init__`). -/
def matchFloat : List Char → Option (List Char × List Char)
  | c1 :: c2 :: rest =>
    if isDigitC c1 && (c2 = '.') then
      let s := rest.span isDigitC
      if s.1.isEmpty then none else some (c1 :: c2 :: s.1, s.2)
    else none
  | _ => none

/-- One step of `Lexer.tokenize` (lines 40-52): the ordered alternation
`FLOAT | INTEGER | PLUS | MINUS | WHITESPACE | LPAREN | RPAREN | MUL | DIV`
anchored at the cursor.  The first listed pattern that matches wins, each
matching greedily (Python leftmost-alternative semantics); `none` means the
generator's `while` loop stops here. -/
def nextTok (l : List Char) : Option (Token × List Char) :=
  match matchFloat l with
  | some (v, r) => some (⟨"FLOAT", String.mk v⟩, r)
  | none =>
  match matchPlus isDigitC l with
  | some (v, r) => some (⟨"INTEGER", String.mk v⟩, r)
  | none =>
  match matchLit '+' l with
  | some (v, r) => some (⟨"PLUS", String.mk v⟩, r)
  | none =>
  match matchLit '-' l with
  | some (v, r) => some (⟨"MINUS", String.mk v⟩, r)
  | none =>
  match matchPlus isSpaceC l with
  | some (v, r) => some (⟨"WHITESPACE", String.mk v⟩, r)
  | none =>
  match matchLit '(' l with
  | some (v, r) => some (⟨"LPAREN", String.mk v⟩, r)
  | none =>
  match matchLit ')' l with
  | some (v, r) => some (⟨"RPAREN", String.mk v⟩, r)
  | none =>
  match matchLit '*' l with
  | some (v, r) => some (⟨"MUL", String.mk v⟩, r)
  | none =>
  match matchLit '/' l with
  | some (v, r) => some (⟨"DIV", String.mk v⟩, r)
  | none => none

/-- A Python number: `int` or `float`.  Floats are modelled as exact
rationals (see the header comment). -/
inductive Value where
  | intV (n : Int)
  | floatV (q : ℚ)
deriving DecidableEq, Repr

/-- The error taxonomy of the pipeline.  `tokenizer pos len text` carries
exactly the data of the message
`'Tokenizer stopped at pos {} of {} in "{}"'` (lines 53-56);
`syntaxErr expected found` is `eat`'s
`"Expected token of type '{}' but found '{}'"` (lines 161-162);
`unrecognized t` is `parse_factor`'s `"Unrecognized token: {}"` (line 254). -/
inductive Err where
  | tokenizer (pos len : Nat) (text : String)
  | syntaxErr (expected found : String)
  | unrecognized (t : Token)
  | divisionByZero
  | stopIteration
  | keyError (k : String)
  | nameError (n : String)
  | fuelOut
deriving DecidableEq, Repr

/-- A syntax error in the Python sense: both `raise SyntaxError(...)` sites
of the parser raise the same builtin exception type. -/
def Err.isSyntax : Err → Bool
  | .syntaxErr _ _ => true
  | .unrecognized _ => true
  | _ => false

/-- The abstract syntax tree: `Number` (which keeps its token, lines 72-86),
`BinOp` and `UnaryOp` (which store the operator token, lines 89-116). -/
inductive Ast where
  | number (token : Token) (value : Value)
  | binOp (op : Token) (left right : Ast)
  | unaryOp (op : Token) (expr : Ast)
deriving DecidableEq, Repr

/-- Parser state: the one-token lookahead `self.current_token` together
with the generator's cursor (the not-yet-scanned suffix of the input). -/
abbrev St := Token × List Char

/-- `next(self.tokens)` as performed inside `eat` (lines 155-158): resume
the generator; if it matches, yield the token; if it stops with input left,
the generator raises `TokenizerException`; if it stops at the end of input,
the generator's `StopIteration` is caught and the synthetic `EOF` token is
substituted.  `orig` is the whole input (the generator closed over it). -/
def pullTok (orig : List Char) (rest : List Char) : Except Err St :=
  match nextTok rest with
  | some (t, r) => .ok (t, r)
  | none =>
    if rest.isEmpty then .ok (Token.mk "EOF" "", rest)
    else .error (.tokenizer (orig.length - rest.length) orig.length (String.mk orig))

/-- The initial `next(self.tokens)` in `Parser.parse` (line 144), which does
*not* catch `StopIteration`: on empty input the `StopIteration` escapes. -/
def firstTok (orig : List Char) : Except Err St :=
  match nextTok orig with
  | some (t, r) => .ok (t, r)
  | none =>
    if orig.isEmpty then .error .stopIteration
    else .error (.tokenizer 0 orig.length (String.mk orig))

/-- `Parser.eat` (lines 148-162). -/
def eat (orig : List Char) (tokenType : String) (st : St) : Except Err St :=
  if st.1.name = tokenType then pullTok orig st.2
  else .error (.syntaxErr tokenType st.1.name)

/-- The loop body of `Parser.eat_whitespace` (lines 164-167), with explicit
fuel so that the definition is structural (hence kernel-computable).  Each
iteration `eat`s one `WHITESPACE` token. -/
def eatWsF (orig : List Char) : Nat → St → Except Err St
  | 0, _ => .error .fuelOut
  | fuel + 1, st =>
    if st.1.name = "WHITESPACE" then
      match eat orig "WHITESPACE" st with
      | .error e => .error e
      | .ok st' => eatWsF orig fuel st'
    else .ok st

/-- `Parser.eat_whitespace`.  Fuel `|rest| + 2` always suffices: every
iteration consumes at least one character of the cursor's suffix, except a
final iteration that substitutes `EOF` (whose name ends the loop). -/
def eatWhitespace (orig : List Char) (st : St) : Except Err St :=
  eatWsF orig (st.2.length + 2) st

/-- `int(token.value)` on the digit strings produced by the `INTEGER`
pattern. -/
def natOfDigits (l : List Char) : Nat :=
  l.foldl (fun acc c => 10 * acc + (c.toNat - '0'.toNat)) 0

/-- `float(token.value)` on the `d.d+` strings produced by the `FLOAT`
pattern, in the exact rational model of floats. -/
def ratOfFloatStr (s : String) : ℚ :=
  let ip := s.data.takeWhile (fun c => c ≠ '.')
  let fp := (s.data.dropWhile (fun c => c ≠ '.')).drop 1
  (natOfDigits ip : ℚ) + (natOfDigits fp : ℚ) / ((10 : ℚ) ^ fp.length)

/-- Which mutually recursive parser procedure is executing:
`parse_expr` (lines 170-189), its `while match_addop` loop,
`parse_term` (lines 192-199), its `while match_multop` loop, and
`parse_factor` (lines 227-257).  The loop modes carry the running
left-hand node folded by `parse_binop` (lines 208-218). -/
inductive PMode where
  | expr
  | exprLoop (node : Ast)
  | term
  | termLoop (node : Ast)
  | factor

/-- The recursive-descent parser of `calc.py`, fuel-indexed.  Each branch
transcribes the corresponding Python procedure; `parse_binop` (which `eat`s
the operator token, skips whitespace, and calls the right-hand callback) is
inlined at its two call sites with `right_callback = parse_term` resp.
`parse_factor`, exactly as invoked at lines 187 and 198. -/
def parseRun (orig : List Char) : Nat → PMode → St → Except Err (Ast × St)
  | 0, _, _ => .error .fuelOut
  | fuel + 1, .expr, st =>
    -- parse_expr: node = parse_term(); eat_whitespace(); while match_addop(): ...
    match parseRun orig fuel .term st with
    | .error e => .error e
    | .ok (node, st) =>
      match eatWhitespace orig st with
      | .error e => .error e
      | .ok st => parseRun orig fuel (.exprLoop node) st
  | fuel + 1, .exprLoop node, st =>
    -- while match_addop(): node = parse_binop(left=node, right_callback=parse_term)
    if st.1.name = "PLUS" || st.1.name = "MINUS" then
      let op := st.1
      match eat orig op.name st with
      | .error e => .error e
      | .ok st =>
        match eatWhitespace orig st with
        | .error e => .error e
        | .ok st =>
          match parseRun orig fuel .term st with
          | .error e => .error e
          | .ok (right, st) => parseRun orig fuel (.exprLoop (.binOp op node right)) st
    else .ok (node, st)
  | fuel + 1, .term, st =>
    -- parse_term: node = parse_factor(); eat_whitespace(); while match_multop(): ...
    match parseRun orig fuel .factor st with
    | .error e => .error e
    | .ok (node, st) =>
      match eatWhitespace orig st with
      | .error e => .error e
      | .ok st => parseRun orig fuel (.termLoop node) st
  | fuel + 1, .termLoop node, st =>
    -- while match_multop(): node = parse_binop(left=node, right_callback=parse_factor)
    if st.1.name = "MUL" || st.1.name = "DIV" then
      let op := st.1
      match eat orig op.name st with
      | .error e => .error e
      | .ok st =>
        match eatWhitespace orig st with
        | .error e => .error e
        | .ok st =>
          match parseRun orig fuel .factor st with
          | .error e => .error e
          | .ok (right, st) => parseRun orig fuel (.termLoop (.binOp op node right)) st
    else .ok (node, st)
  | fuel + 1, .factor, st =>
    -- parse_factor (lines 227-257); `token = self.current_token`
    let token := st.1
    if token.name = "INTEGER" then
      match eat orig "INTEGER" st with
      | .error e => .error e
      | .ok st =>
        -- node = Number(token); then the trailing eat_whitespace (line 255)
        match eatWhitespace orig st with
        | .error e => .error e
        | .ok st => .ok (.number token (.intV (natOfDigits token.value.data)), st)
    else if token.name = "FLOAT" then
      match eat orig "FLOAT" st with
      | .error e => .error e
      | .ok st =>
        match eatWhitespace orig st with
        | .error e => .error e
        | .ok st => .ok (.number token (.floatV (ratOfFloatStr token.value)), st)
    else if token.name = "MINUS" then
      -- node = UnaryOp(token, self.parse_factor()); whitespace cannot follow the unary minus
      match eat orig "MINUS" st with
      | .error e => .error e
      | .ok st =>
        match parseRun orig fuel .factor st with
        | .error e => .error e
        | .ok (inner, st) =>
          match eatWhitespace orig st with
          | .error e => .error e
          | .ok st => .ok (.unaryOp token inner, st)
    else if token.name = "LPAREN" then
      match eat orig "LPAREN" st with
      | .error e => .error e
      | .ok st =>
        match eatWhitespace orig st with
        | .error e => .error e
        | .ok st =>
          match parseRun orig fuel .expr st with
          | .error e => .error e
          | .ok (node, st) =>
            match eatWhitespace orig st with
            | .error e => .error e
            | .ok st =>
              match eat orig "RPAREN" st with
              | .error e => .error e
              | .ok st =>
                match eatWhitespace orig st with
                | .error e => .error e
                | .ok st => .ok (node, st)
    else .error (.unrecognized token)

/-- `Parser.parse` (lines 142-145): create the lazy token stream, pull the
first token, and run `parse_expr`.  Note: the result of `parse_expr` is
returned *without* checking that the remaining lookahead is `EOF`.  The
fuel `3 * length + 3` is proved sufficient for every grammar-conforming
input (claim C9). -/
def parse (text : String) : Except Err (Ast × St) :=
  match firstTok text.data with
  | .error e => .error e
  | .ok st => parseRun text.data (3 * text.data.length + 3) .expr st

/-- Numeric value of a `Value` (Python's numeric-tower comparison). -/
def toRat : Value → ℚ
  | .intV n => (n : ℚ)
  | .floatV q => q

/-- Is this value a float? -/
def Value.isFloat : Value → Bool
  | .floatV _ => true
  | .intV _ => false

/-- Python `x + y` on numbers: `int + int` is `int`, any float operand
promotes the result to float. -/
def addV : Value → Value → Value
  | .intV a, .intV b => .intV (a + b)
  | x, y => .floatV (toRat x + toRat y)

/-- Python `x - y`. -/
def subV : Value → Value → Value
  | .intV a, .intV b => .intV (a - b)
  | x, y => .floatV (toRat x - toRat y)

/-- Python `x * y`. -/
def mulV : Value → Value → Value
  | .intV a, .intV b => .intV (a * b)
  | x, y => .floatV (toRat x * toRat y)

/-- Python `x / y`: true division, always a float, raising
`ZeroDivisionError` when the divisor is exactly zero (int `0` or float
`0.0`). -/
def divV (x y : Value) : Except Err Value :=
  if toRat y = 0 then .error .divisionByZero
  else .ok (.floatV (toRat x / toRat y))

/-- The `operators` dictionary of `Calculator.visit_BinOp` (lines 299-304);
a missing key raises `KeyError` (modelled at the lookup site). -/
def operators (name : String) : Option (Value → Value → Except Err Value) :=
  if name = "PLUS" then some (fun x y => .ok (addV x y))
  else if name = "MINUS" then some (fun x y => .ok (subV x y))
  else if name = "MUL" then some (fun x y => .ok (mulV x y))
  else if name = "DIV" then some divV
  else none

/-- `Calculator.visit` dispatch together with `visit_Number`,
`visit_BinOp`, `visit_UnaryOp` (lines 266-312).  `visit_BinOp` looks the
operator up first (raising `KeyError` on a miss), then evaluates the left
operand, then the right, then applies. -/
def visit : Ast → Except Err Value
  | .number _ v => .ok v
  | .binOp op l r =>
    match operators op.name with
    | none => .error (.keyError op.name)
    | some f =>
      match visit l with
      | .error e => .error e
      | .ok vl =>
        match visit r with
        | .error e => .error e
        | .ok vr => f vl vr
  | .unaryOp _ e =>
    match visit e with
    | .error er => .error er
    | .ok v => .ok (negV v)
where
  /-- `visit_UnaryOp`: `- self.visit(node.expr)`. -/
  negV : Value → Value
  | .intV n => .intV (-n)
  | .floatV q => .floatV (-q)

/-- `Calculator.evaluate` (lines 314-316): parse, then visit the tree. -/
def evaluate (text : String) : Except Err Value :=
  match parse text with
  | .error e => .error e
  | .ok (tree, _) => visit tree

/-- The names bound at module level in `calc.py` (imports, classes, the
module logger, and the functions themselves). -/
def moduleGlobals : List String :=
  ["logging", "re", "get_logger", "add_logger", "logger",
   "Token", "TokenizerException", "Lexer", "AbstractSyntaxTree", "Number",
   "BinOp", "UnaryOp", "Parser", "NodeVistor", "Calculator", "calc"]

/-- The module-level convenience function `calc` (lines 319-322):
`evaluator = Evaluator()` resolves the name `Evaluator` in the module
globals; since no such name is bound, Python raises `NameError` before any
evaluation takes place.  (Were the name bound to the evaluator class, the
call would proceed as `evaluate`.) -/
def «calc» (text : String) : Except Err Value :=
  if moduleGlobals.contains "Evaluator" then evaluate text
  else .error (.nameError "Evaluator")

deriving instance DecidableEq for Except

/-! ## The grammar of spec §4.2

`SpecG` is the character-level grammar exactly as displayed in §4.2 of the
specification:

```
expr    := term (WHITESPACE* addop term)*
addop   := PLUS | MINUS
term    := factor (WHITESPACE* multop factor)*
multop  := MUL | DIV
factor  := MINUS factor | INTEGER | FLOAT | LPAREN WHITESPACE* expr WHITESPACE* RPAREN
factor  := factor WHITESPACE*
```

with `INTEGER` one-or-more digits, `FLOAT` digit-dot-digits (§4.1), and
`WHITESPACE*` any (possibly empty) run of whitespace characters.  `NormG`
is a whitespace-normalised variant used as proof infrastructure: every
whitespace run is attached as trailing whitespace of the preceding factor
(or follows the opening parenthesis), which every `SpecG` derivation can be
reshuffled into. -/

/-- A nonempty all-digit string (an `INTEGER` lexeme). -/
def IsDigitStr (l : List Char) : Prop := l ≠ [] ∧ ∀ c ∈ l, isDigitC c = true

/-- A (possibly empty) all-whitespace string (`WHITESPACE*`). -/
def IsWsStr (l : List Char) : Prop := ∀ c ∈ l, isSpaceC c = true

/-- The nonterminals of the grammar; `agroups`/`mgroups` are the starred
group sequences of `expr` resp. `term`. -/
inductive GSym where
  | expr | agroups | term | mgroups | factor
deriving DecidableEq

/-- The §4.2 grammar, verbatim: `SpecG sym s` means the nonterminal `sym`
derives the character string `s`. -/
inductive SpecG : GSym → List Char → Prop where
  | expr {t gs} : SpecG .term t → SpecG .agroups gs → SpecG .expr (t ++ gs)
  | anil : SpecG .agroups []
  | acons {w op t gs} : IsWsStr w → (op = '+' ∨ op = '-') →
      SpecG .term t → SpecG .agroups gs → SpecG .agroups (w ++ op :: (t ++ gs))
  | term {f gs} : SpecG .factor f → SpecG .mgroups gs → SpecG .term (f ++ gs)
  | mnil : SpecG .mgroups []
  | mcons {w op f gs} : IsWsStr w → (op = '*' ∨ op = '/') →
      SpecG .factor f → SpecG .mgroups gs → SpecG .mgroups (w ++ op :: (f ++ gs))
  | neg {f} : SpecG .factor f → SpecG .factor ('-' :: f)
  | int {ds} : IsDigitStr ds → SpecG .factor ds
  | flt {c ds} : isDigitC c = true → IsDigitStr ds → SpecG .factor (c :: '.' :: ds)
  | paren {w1 e w2} : IsWsStr w1 → SpecG .expr e → IsWsStr w2 →
      SpecG .factor ('(' :: (w1 ++ e ++ w2 ++ [')']))
  | ftrail {f w} : SpecG .factor f → IsWsStr w → SpecG .factor (f ++ w)

/-- The whitespace-normalised grammar: same language as `SpecG` (the
normalisation theorem pushes every whitespace run into the trailing
position of the preceding factor, or keeps it after an opening
parenthesis). -/
inductive NormG : GSym → List Char → Prop where
  | expr {t gs} : NormG .term t → NormG .agroups gs → NormG .expr (t ++ gs)
  | anil : NormG .agroups []
  | acons {op t gs} : (op = '+' ∨ op = '-') →
      NormG .term t → NormG .agroups gs → NormG .agroups (op :: (t ++ gs))
  | term {f gs} : NormG .factor f → NormG .mgroups gs → NormG .term (f ++ gs)
  | mnil : NormG .mgroups []
  | mcons {op f gs} : (op = '*' ∨ op = '/') →
      NormG .factor f → NormG .mgroups gs → NormG .mgroups (op :: (f ++ gs))
  | int {ds w} : IsDigitStr ds → IsWsStr w → NormG .factor (ds ++ w)
  | flt {c ds w} : isDigitC c = true → IsDigitStr ds → IsWsStr w →
      NormG .factor (c :: '.' :: (ds ++ w))
  | neg {f} : NormG .factor f → NormG .factor ('-' :: f)
  | paren {w1 e w} : IsWsStr w1 → NormG .expr e → IsWsStr w →
      NormG .factor ('(' :: (w1 ++ e ++ ')' :: w))

/-- Motive of the whitespace-absorption lemma: trailing whitespace can be
appended to any normalised derivation (for the group sequences, only when
they are nonempty, since the whitespace then sits after the last factor of
the last group). -/
def AbsorbProp : GSym → List Char → Prop
  | .agroups, s => ∀ w, IsWsStr w → s ≠ [] → NormG .agroups (s ++ w)
  | .mgroups, s => ∀ w, IsWsStr w → s ≠ [] → NormG .mgroups (s ++ w)
  | sym, s => ∀ w, IsWsStr w → NormG sym (s ++ w)

/-- Motive of the normalisation theorem: a §4.2 group sequence is a leading
whitespace run (to be absorbed by the preceding factor) followed by a
normalised group sequence; the other nonterminals normalise in place. -/
def NormProp : GSym → List Char → Prop
  | .agroups, s => ∃ w t, s = w ++ t ∧ IsWsStr w ∧ NormG .agroups t
  | .mgroups, s => ∃ w t, s = w ++ t ∧ IsWsStr w ∧ NormG .mgroups t
  | sym, s => NormG sym s

/-- What may legitimately follow a factor: end of input or one of the
characters an enclosing context can continue with.  (None of these is a
digit, a dot, or whitespace, which makes the greedy token matches of the
factor's own lexemes maximal.) -/
def BndF (r : List Char) : Prop :=
  r = [] ∨ ∃ c cs, r = c :: cs ∧ (c = '+' ∨ c = '-' ∨ c = '*' ∨ c = '/' ∨ c = ')')

/-- What may follow a term: end of input, an addop, or a closing
parenthesis (crucially not `*` or `/`, which the `match_multop` loop would
consume). -/
def BndT (r : List Char) : Prop :=
  r = [] ∨ ∃ c cs, r = c :: cs ∧ (c = '+' ∨ c = '-' ∨ c = ')')

/-- What may follow an expression: end of input or a closing parenthesis
(not an addop, which the `match_addop` loop would consume). -/
def BndE (r : List Char) : Prop :=
  r = [] ∨ ∃ c cs, r = c :: cs ∧ c = ')'

/-- Well-formedness of parser output: every binary node carries one of the
four operator tokens (so the `operators` dictionary lookup succeeds). -/
def WfAst : Ast → Prop
  | .number _ _ => True
  | .binOp op l r =>
      (op.name = "PLUS" ∨ op.name = "MINUS" ∨ op.name = "MUL" ∨ op.name = "DIV") ∧
      WfAst l ∧ WfAst r
  | .unaryOp _ e => WfAst e

/-- Motive of the parser-completeness theorem, per nonterminal: running the
corresponding parser procedure on a derived string `s` followed by a
legitimate continuation `rest` — with the lookahead already holding the
first token of `s ++ rest`, as the Python parser does — succeeds, consumes
exactly `s` (plus the junction whitespace), leaves the lookahead holding
the first token of `rest`, and produces a well-formed tree.  The fuel
bounds are the recursion-depth budget: at most three grammar levels per
consumed character. -/
def ParseOk : GSym → List Char → Prop
  | .factor, s => ∀ orig rest fuel st₀ st₁, BndF rest →
      pullTok orig (s ++ rest) = .ok st₀ → pullTok orig rest = .ok st₁ →
      3 * s.length + 1 ≤ fuel →
      ∃ a, parseRun orig fuel .factor st₀ = .ok (a, st₁) ∧ WfAst a
  | .term, s => ∀ orig rest fuel st₀ st₁, BndT rest →
      pullTok orig (s ++ rest) = .ok st₀ → pullTok orig rest = .ok st₁ →
      3 * s.length + 2 ≤ fuel →
      ∃ a, parseRun orig fuel .term st₀ = .ok (a, st₁) ∧ WfAst a
  | .expr, s => ∀ orig rest fuel st₀ st₁, BndE rest →
      pullTok orig (s ++ rest) = .ok st₀ → pullTok orig rest = .ok st₁ →
      3 * s.length + 3 ≤ fuel →
      ∃ a, parseRun orig fuel .expr st₀ = .ok (a, st₁) ∧ WfAst a
  | .mgroups, s => ∀ orig rest fuel st₀ st₁ node, BndT rest → WfAst node →
      pullTok orig (s ++ rest) = .ok st₀ → pullTok orig rest = .ok st₁ →
      3 * s.length + 1 ≤ fuel →
      ∃ a, parseRun orig fuel (.termLoop node) st₀ = .ok (a, st₁) ∧ WfAst a
  | .agroups, s => ∀ orig rest fuel st₀ st₁ node, BndE rest → WfAst node →
      pullTok orig (s ++ rest) = .ok st₀ → pullTok orig rest = .ok st₁ →
      3 * s.length + 2 ≤ fuel →
      ∃ a, parseRun orig fuel (.exprLoop node) st₀ = .ok (a, st₁) ∧ WfAst a

/-! ## Tokenizer lemmas: the greedy anchored matches of `nextTok` -/

theorem takeWhile_all_head {p : Char → Bool} {l r : List Char}
    (hl : ∀ c ∈ l, p c = true)
    (hr : ∀ c cs, r = c :: cs → p c = false) :
    (l ++ r).takeWhile p = l := by
  induction l with
  | nil =>
    cases r with
    | nil => rfl
    | cons c cs => simp [List.takeWhile_cons, hr c cs rfl]
  | cons a l ih =>
    simp [List.takeWhile_cons, hl a (by simp), ih (fun c hc => hl c (by simp [hc]))]

theorem dropWhile_all_head {p : Char → Bool} {l r : List Char}
    (hl : ∀ c ∈ l, p c = true)
    (hr : ∀ c cs, r = c :: cs → p c = false) :
    (l ++ r).dropWhile p = r := by
  induction l with
  | nil =>
    cases r with
    | nil => rfl
    | cons c cs => simp [List.dropWhile_cons, hr c cs rfl]
  | cons a l ih =>
    simp [List.dropWhile_cons, hl a (by simp), ih (fun c hc => hl c (by simp [hc]))]

theorem space_facts {c : Char} (h : isSpaceC c = true) :
    isDigitC c = false ∧ c ≠ '+' ∧ c ≠ '-' ∧ c ≠ '.' ∧ c ≠ '(' ∧ c ≠ ')' ∧ c ≠ '*' ∧ c ≠ '/' := by
  simp only [isSpaceC, Bool.or_eq_true, decide_eq_true_eq] at h
  rcases h with ((((h | h) | h) | h) | h) | h <;> subst h <;> decide

theorem digit_not_space {c : Char} (h : isDigitC c = true) : isSpaceC c = false := by
  cases hs : isSpaceC c with
  | false => rfl
  | true => exact absurd h (by simp [(space_facts hs).1])

theorem digit_ne_dot {c : Char} (h : isDigitC c = true) : c ≠ '.' := by
  intro he; subst he; exact absurd h (by decide)

/-- Greedy match of a nonempty digit run: `INTEGER` wins (and `FLOAT` loses)
when the run is not followed by a dot-and-digit continuation. -/
theorem nextTok_int {ds r : List Char} (h1 : ds ≠ [])
    (h2 : ∀ c ∈ ds, isDigitC c = true)
    (h3 : ∀ c cs, r = c :: cs → isDigitC c = false ∧ c ≠ '.') :
    nextTok (ds ++ r) = some (⟨"INTEGER", String.mk ds⟩, r) := by
  obtain ⟨d, ds', rfl⟩ : ∃ d ds', ds = d :: ds' := by
    cases ds with
    | nil => exact absurd rfl h1
    | cons d ds' => exact ⟨d, ds', rfl⟩
  have hd : isDigitC d = true := h2 d (by simp)
  have h2' : ∀ c ∈ ds', isDigitC c = true := fun c hc => h2 c (by simp [hc])
  have h3' : ∀ c cs, r = c :: cs → isDigitC c = false := fun c cs hc => (h3 c cs hc).1
  have hfl : matchFloat (d :: (ds' ++ r)) = none := by
    cases ds' with
    | nil =>
      cases r with
      | nil => rfl
      | cons c cs => simp [matchFloat, (h3 c cs rfl).2]
    | cons d2 ds'' =>
      have hd2 : isDigitC d2 = true := h2 d2 (by simp)
      simp [matchFloat, digit_ne_dot hd2]
  simp only [List.cons_append]
  simp [nextTok, hfl, matchPlus, List.span_eq_take_drop, hd,
    takeWhile_all_head h2' h3', dropWhile_all_head h2' h3']

/-- Greedy match of a nonempty whitespace run not followed by more
whitespace. -/
theorem nextTok_ws {w r : List Char} (h1 : w ≠ [])
    (h2 : ∀ c ∈ w, isSpaceC c = true)
    (h3 : ∀ c cs, r = c :: cs → isSpaceC c = false) :
    nextTok (w ++ r) = some (⟨"WHITESPACE", String.mk w⟩, r) := by
  obtain ⟨a, w', rfl⟩ : ∃ a w', w = a :: w' := by
    cases w with
    | nil => exact absurd rfl h1
    | cons a w' => exact ⟨a, w', rfl⟩
  have ha := space_facts (h2 a (by simp))
  have h2' : ∀ c ∈ w', isSpaceC c = true := fun c hc => h2 c (by simp [hc])
  have hfl : matchFloat (a :: (w' ++ r)) = none := by
    cases w' with
    | nil =>
      cases r with
      | nil => rfl
      | cons c cs => simp [matchFloat, ha.1]
    | cons b w'' => simp [matchFloat, ha.1]
  simp only [List.cons_append]
  simp [nextTok, hfl, matchPlus, List.span_eq_take_drop, ha.1, matchLit, ha.2.1, ha.2.2.1,
    h2 a (by simp), takeWhile_all_head h2' h3, dropWhile_all_head h2' h3]

/-- Greedy match of a `FLOAT` lexeme whose digit tail is maximal. -/
theorem nextTok_float {c : Char} {ds r : List Char} (hc : isDigitC c = true) (h1 : ds ≠ [])
    (h2 : ∀ c' ∈ ds, isDigitC c' = true)
    (h3 : ∀ c' cs, r = c' :: cs → isDigitC c' = false) :
    nextTok (c :: '.' :: (ds ++ r)) = some (⟨"FLOAT", String.mk (c :: '.' :: ds)⟩, r) := by
  have htake := takeWhile_all_head h2 h3
  have hdrop := dropWhile_all_head h2 h3
  simp [nextTok, matchFloat, hc, List.span_eq_take_drop, htake, hdrop, h1]

theorem nextTok_plus {r : List Char} : nextTok ('+' :: r) = some (⟨"PLUS", "+"⟩, r) := by
  have g1 : isDigitC '+' = false := by decide
  have g2 : isSpaceC '+' = false := by decide
  cases r <;>
    simp [nextTok, matchFloat, matchPlus, matchLit, List.span_eq_take_drop,
      List.takeWhile_cons, List.dropWhile_cons, g1, g2]

theorem nextTok_minus {r : List Char} : nextTok ('-' :: r) = some (⟨"MINUS", "-"⟩, r) := by
  have g1 : isDigitC '-' = false := by decide
  have g2 : isSpaceC '-' = false := by decide
  have g3 : ('-' : Char) ≠ '+' := by decide
  cases r <;>
    simp [nextTok, matchFloat, matchPlus, matchLit, List.span_eq_take_drop,
      List.takeWhile_cons, List.dropWhile_cons, g1, g2, g3]

theorem nextTok_lparen {r : List Char} : nextTok ('(' :: r) = some (⟨"LPAREN", "("⟩, r) := by
  have g1 : isDigitC '(' = false := by decide
  have g2 : isSpaceC '(' = false := by decide
  have g3 : ('(' : Char) ≠ '+' := by decide
  have g4 : ('(' : Char) ≠ '-' := by decide
  cases r <;>
    simp [nextTok, matchFloat, matchPlus, matchLit, List.span_eq_take_drop,
      List.takeWhile_cons, List.dropWhile_cons, g1, g2, g3, g4]

theorem nextTok_rparen {r : List Char} : nextTok (')' :: r) = some (⟨"RPAREN", ")"⟩, r) := by
  have g1 : isDigitC ')' = false := by decide
  have g2 : isSpaceC ')' = false := by decide
  have g3 : (')' : Char) ≠ '+' := by decide
  have g4 : (')' : Char) ≠ '-' := by decide
  have g5 : (')' : Char) ≠ '(' := by decide
  cases r <;>
    simp [nextTok, matchFloat, matchPlus, matchLit, List.span_eq_take_drop,
      List.takeWhile_cons, List.dropWhile_cons, g1, g2, g3, g4, g5]

theorem nextTok_mul {r : List Char} : nextTok ('*' :: r) = some (⟨"MUL", "*"⟩, r) := by
  have g1 : isDigitC '*' = false := by decide
  have g2 : isSpaceC '*' = false := by decide
  have g3 : ('*' : Char) ≠ '+' := by decide
  have g4 : ('*' : Char) ≠ '-' := by decide
  have g5 : ('*' : Char) ≠ '(' := by decide
  have g6 : ('*' : Char) ≠ ')' := by decide
  cases r <;>
    simp [nextTok, matchFloat, matchPlus, matchLit, List.span_eq_take_drop,
      List.takeWhile_cons, List.dropWhile_cons, g1, g2, g3, g4, g5, g6]

theorem nextTok_slash {r : List Char} : nextTok ('/' :: r) = some (⟨"DIV", "/"⟩, r) := by
  have g1 : isDigitC '/' = false := by decide
  have g2 : isSpaceC '/' = false := by decide
  have g3 : ('/' : Char) ≠ '+' := by decide
  have g4 : ('/' : Char) ≠ '-' := by decide
  have g5 : ('/' : Char) ≠ '(' := by decide
  have g6 : ('/' : Char) ≠ ')' := by decide
  have g7 : ('/' : Char) ≠ '*' := by decide
  cases r <;>
    simp [nextTok, matchFloat, matchPlus, matchLit, List.span_eq_take_drop,
      List.takeWhile_cons, List.dropWhile_cons, g1, g2, g3, g4, g5, g6, g7]

/-! ## Parser-state lemmas -/

theorem pullTok_nil {orig : List Char} : pullTok orig [] = .ok (⟨"EOF", ""⟩, []) := rfl

theorem pullTok_of_nextTok {orig l : List Char} {t : Token} {r : List Char}
    (h : nextTok l = some (t, r)) : pullTok orig l = .ok (t, r) := by
  simp [pullTok, h]

theorem eatWs_skip {orig : List Char} {st : St} (h : st.1.name ≠ "WHITESPACE") :
    eatWhitespace orig st = .ok st := by
  simp [eatWhitespace, eatWsF, h]

theorem eatWs_one {orig : List Char} {st st' : St} (h : st.1.name = "WHITESPACE")
    (h2 : pullTok orig st.2 = .ok st') (h3 : st'.1.name ≠ "WHITESPACE") :
    eatWhitespace orig st = .ok st' := by
  simp [eatWhitespace, eatWsF, h, eat, h2, h3]

theorem eat_ok {orig : List Char} {st' : St} (ty : String) (st : St) (h : st.1.name = ty)
    (h2 : pullTok orig st.2 = .ok st') : eat orig ty st = .ok st' := by
  simp [eat, h, h2]

/-- The lookahead obtained at a factor boundary is never a `WHITESPACE`
token (it is `EOF`, an operator, or a closing parenthesis). -/
theorem bndF_pull_name {orig rest : List Char} {st : St} (hb : BndF rest)
    (h : pullTok orig rest = .ok st) :
    st.1.name = "EOF" ∨ st.1.name = "PLUS" ∨ st.1.name = "MINUS" ∨
      st.1.name = "MUL" ∨ st.1.name = "DIV" ∨ st.1.name = "RPAREN" := by
  rcases hb with rfl | ⟨c, cs, rfl, hc⟩
  · rw [pullTok_nil] at h
    cases h
    left; rfl
  · rcases hc with rfl | rfl | rfl | rfl | rfl
    · rw [pullTok_of_nextTok nextTok_plus] at h; cases h; simp
    · rw [pullTok_of_nextTok nextTok_minus] at h; cases h; simp
    · rw [pullTok_of_nextTok nextTok_mul] at h; cases h; simp
    · rw [pullTok_of_nextTok nextTok_slash] at h; cases h; simp
    · rw [pullTok_of_nextTok nextTok_rparen] at h; cases h; simp

theorem bndT_pull_name {orig rest : List Char} {st : St} (hb : BndT rest)
    (h : pullTok orig rest = .ok st) :
    st.1.name = "EOF" ∨ st.1.name = "PLUS" ∨ st.1.name = "MINUS" ∨ st.1.name = "RPAREN" := by
  rcases hb with rfl | ⟨c, cs, rfl, hc⟩
  · rw [pullTok_nil] at h
    cases h
    left; rfl
  · rcases hc with rfl | rfl | rfl
    · rw [pullTok_of_nextTok nextTok_plus] at h; cases h; simp
    · rw [pullTok_of_nextTok nextTok_minus] at h; cases h; simp
    · rw [pullTok_of_nextTok nextTok_rparen] at h; cases h; simp

theorem bndE_pull_name {orig rest : List Char} {st : St} (hb : BndE rest)
    (h : pullTok orig rest = .ok st) :
    st.1.name = "EOF" ∨ st.1.name = "RPAREN" := by
  rcases hb with rfl | ⟨c, cs, rfl, rfl⟩
  · rw [pullTok_nil] at h
    cases h
    left; rfl
  · rw [pullTok_of_nextTok nextTok_rparen] at h; cases h; simp

theorem BndE.toT {rest : List Char} (h : BndE rest) : BndT rest := by
  rcases h with rfl | ⟨c, cs, rfl, rfl⟩
  · exact Or.inl rfl
  · exact Or.inr ⟨_, _, rfl, by simp⟩

theorem BndT.toF {rest : List Char} (h : BndT rest) : BndF rest := by
  rcases h with rfl | ⟨c, cs, rfl, hc⟩
  · exact Or.inl rfl
  · exact Or.inr ⟨_, _, rfl, by tauto⟩

/-- Every factor-boundary continuation starts (if at all) with a character
that is not a digit, not a dot, and not whitespace. -/
theorem bndF_head {rest : List Char} (hb : BndF rest) :
    ∀ c cs, rest = c :: cs → isDigitC c = false ∧ c ≠ '.' ∧ isSpaceC c = false := by
  intro c cs hc
  rcases hb with rfl | ⟨c', cs', he, hc'⟩
  · cases hc
  · rw [he] at hc
    cases hc
    rcases hc' with rfl | rfl | rfl | rfl | rfl <;> exact ⟨by decide, by decide, by decide⟩

/-! ## First-token lemmas for normalised derivations -/

theorem ws_then_bndF_head {w rest : List Char} (hw : IsWsStr w) (hb : BndF rest) :
    ∀ c cs, w ++ rest = c :: cs → isDigitC c = false ∧ c ≠ '.' := by
  intro c cs hc
  cases w with
  | nil =>
    exact ⟨(bndF_head hb c cs hc).1, (bndF_head hb c cs hc).2.1⟩
  | cons a w' =>
    rw [List.cons_append] at hc
    injection hc with h1 h2
    subst h1
    have := space_facts (hw a (by simp))
    exact ⟨this.1, this.2.2.2.1⟩

theorem mgroups_shape {gs : List Char} (h : NormG .mgroups gs) :
    gs = [] ∨ ∃ c cs, gs = c :: cs ∧ (c = '*' ∨ c = '/') := by
  cases h with
  | mnil => exact Or.inl rfl
  | mcons hop _ _ => exact Or.inr ⟨_, _, rfl, hop⟩

theorem agroups_shape {gs : List Char} (h : NormG .agroups gs) :
    gs = [] ∨ ∃ c cs, gs = c :: cs ∧ (c = '+' ∨ c = '-') := by
  cases h with
  | anil => exact Or.inl rfl
  | acons hop _ _ => exact Or.inr ⟨_, _, rfl, hop⟩

theorem mgroups_bndF {gs rest : List Char} (h : NormG .mgroups gs) (hb : BndT rest) :
    BndF (gs ++ rest) := by
  rcases mgroups_shape h with rfl | ⟨c, cs, rfl, hc⟩
  · exact hb.toF
  · exact Or.inr ⟨_, _, rfl, by tauto⟩

theorem agroups_bndT {gs rest : List Char} (h : NormG .agroups gs) (hb : BndE rest) :
    BndT (gs ++ rest) := by
  rcases agroups_shape h with rfl | ⟨c, cs, rfl, hc⟩
  · exact hb.toT
  · exact Or.inr ⟨_, _, rfl, by tauto⟩

theorem factor_start {f : List Char} (h : NormG .factor f) :
    ∀ (orig : List Char) {rest : List Char}, BndF rest →
      ∃ st : St, pullTok orig (f ++ rest) = .ok st ∧ st.1.name ≠ "WHITESPACE" := by
  cases h with
  | int hds hw =>
    intro orig rest hb
    rw [List.append_assoc]
    exact ⟨_, pullTok_of_nextTok (nextTok_int hds.1 hds.2 (ws_then_bndF_head hw hb)), by simp⟩
  | flt hc hds hw =>
    rename_i c ds w
    intro orig rest hb
    have hn : nextTok (c :: '.' :: (ds ++ (w ++ rest))) =
        some (⟨"FLOAT", String.mk (c :: '.' :: ds)⟩, w ++ rest) :=
      nextTok_float hc hds.1 hds.2
        (fun c' cs hcs => (ws_then_bndF_head hw hb c' cs hcs).1)
    have hp : pullTok orig ((c :: '.' :: (ds ++ w)) ++ rest) =
        .ok (⟨"FLOAT", String.mk (c :: '.' :: ds)⟩, w ++ rest) := by
      rw [List.cons_append, List.cons_append, List.append_assoc]
      exact pullTok_of_nextTok hn
    exact ⟨_, hp, by simp⟩
  | neg hf =>
    intro orig rest hb
    exact ⟨_, pullTok_of_nextTok nextTok_minus, by simp⟩
  | paren hw1 he hw =>
    intro orig rest hb
    exact ⟨_, pullTok_of_nextTok nextTok_lparen, by simp⟩

theorem term_start {t : List Char} (h : NormG .term t) :
    ∀ (orig : List Char) {rest : List Char}, BndT rest →
      ∃ st : St, pullTok orig (t ++ rest) = .ok st ∧ st.1.name ≠ "WHITESPACE" := by
  cases h with
  | term hf hgs =>
    intro orig rest hb
    rw [List.append_assoc]
    exact factor_start hf orig (mgroups_bndF hgs hb)

theorem expr_start {e : List Char} (h : NormG .expr e) :
    ∀ (orig : List Char) {rest : List Char}, BndE rest →
      ∃ st : St, pullTok orig (e ++ rest) = .ok st ∧ st.1.name ≠ "WHITESPACE" := by
  cases h with
  | expr ht hgs =>
    intro orig rest hb
    rw [List.append_assoc]
    exact term_start ht orig (agroups_bndT hgs hb)

theorem factor_head_char {f : List Char} (h : NormG .factor f) :
    ∃ c cs, f = c :: cs ∧ isSpaceC c = false := by
  cases h with
  | int hds hw =>
    rename_i ds w
    obtain ⟨d, ds', rfl⟩ : ∃ d ds', ds = d :: ds' := by
      cases ds with
      | nil => exact absurd rfl hds.1
      | cons d ds' => exact ⟨d, ds', rfl⟩
    exact ⟨d, ds' ++ w, by simp, digit_not_space (hds.2 d (by simp))⟩
  | flt hc hds hw => exact ⟨_, _, rfl, digit_not_space hc⟩
  | neg hf => exact ⟨_, _, rfl, by decide⟩
  | paren hw1 he hw => exact ⟨_, _, rfl, by decide⟩

theorem term_head_char {t : List Char} (h : NormG .term t) :
    ∃ c cs, t = c :: cs ∧ isSpaceC c = false := by
  cases h with
  | term hf hgs =>
    rename_i f gs
    obtain ⟨c, cs, rfl, hc⟩ := factor_head_char hf
    exact ⟨c, cs ++ gs, by simp, hc⟩

theorem expr_head_char {e : List Char} (h : NormG .expr e) :
    ∃ c cs, e = c :: cs ∧ isSpaceC c = false := by
  cases h with
  | expr ht hgs =>
    rename_i t gs
    obtain ⟨c, cs, rfl, hc⟩ := term_head_char ht
    exact ⟨c, cs ++ gs, by simp, hc⟩

/-! ## Parser completeness over the grammar -/

/-- The parser accepts every whitespace-normalised derivation, consuming
exactly the derived string and its junction whitespace. -/
theorem normG_parseOk {sym : GSym} {s : List Char} (h : NormG sym s) : ParseOk sym s := by
  induction h with
  | int hds hw =>
    rename_i ds w
    intro orig rest fuel st₀ st₁ hb h0 h1 hfuel
    obtain ⟨f, rfl⟩ : ∃ f, fuel = f + 1 := ⟨fuel - 1, by omega⟩
    have hd0 : pullTok orig ((ds ++ w) ++ rest) = .ok (⟨"INTEGER", String.mk ds⟩, w ++ rest) := by
      rw [List.append_assoc]
      exact pullTok_of_nextTok (nextTok_int hds.1 hds.2 (ws_then_bndF_head hw hb))
    rw [hd0] at h0
    obtain rfl : st₀ = (⟨"INTEGER", String.mk ds⟩, w ++ rest) := (Except.ok.inj h0).symm
    have hn1 : st₁.1.name ≠ "WHITESPACE" := by
      rcases bndF_pull_name hb h1 with h | h | h | h | h | h <;> simp [h]
    refine ⟨.number ⟨"INTEGER", String.mk ds⟩ (.intV (natOfDigits ds)), ?_, trivial⟩
    cases w with
    | nil =>
      simp only [List.nil_append]
      simp [parseRun, eat_ok "INTEGER" (⟨"INTEGER", String.mk ds⟩, rest) rfl h1, eatWs_skip hn1]
    | cons a w' =>
      have hws : pullTok orig (a :: (w' ++ rest)) =
          .ok (⟨"WHITESPACE", String.mk (a :: w')⟩, rest) :=
        pullTok_of_nextTok (nextTok_ws (by simp) hw
          (fun c cs hc => (bndF_head hb c cs hc).2.2))
      have hew : eatWhitespace orig (⟨"WHITESPACE", String.mk (a :: w')⟩, rest) = .ok st₁ :=
        eatWs_one rfl h1 hn1
      simp [parseRun, eat_ok "INTEGER" (⟨"INTEGER", String.mk ds⟩, a :: (w' ++ rest)) rfl hws,
        hew]
  | flt hc hds hw =>
    rename_i c ds w
    intro orig rest fuel st₀ st₁ hb h0 h1 hfuel
    obtain ⟨f, rfl⟩ : ∃ f, fuel = f + 1 := ⟨fuel - 1, by omega⟩
    have hd0 : pullTok orig ((c :: '.' :: (ds ++ w)) ++ rest) =
        .ok (⟨"FLOAT", String.mk (c :: '.' :: ds)⟩, w ++ rest) := by
      rw [List.cons_append, List.cons_append, List.append_assoc]
      exact pullTok_of_nextTok (nextTok_float hc hds.1 hds.2
        (fun c' cs hcs => (ws_then_bndF_head hw hb c' cs hcs).1))
    rw [hd0] at h0
    obtain rfl : st₀ = (⟨"FLOAT", String.mk (c :: '.' :: ds)⟩, w ++ rest) :=
      (Except.ok.inj h0).symm
    have hn1 : st₁.1.name ≠ "WHITESPACE" := by
      rcases bndF_pull_name hb h1 with h | h | h | h | h | h <;> simp [h]
    refine ⟨.number ⟨"FLOAT", String.mk (c :: '.' :: ds)⟩
      (.floatV (ratOfFloatStr (String.mk (c :: '.' :: ds)))), ?_, trivial⟩
    cases w with
    | nil =>
      simp only [List.nil_append]
      simp [parseRun, eat_ok "FLOAT" (⟨"FLOAT", String.mk (c :: '.' :: ds)⟩, rest) rfl h1,
        eatWs_skip hn1]
    | cons a w' =>
      have hws : pullTok orig (a :: (w' ++ rest)) =
          .ok (⟨"WHITESPACE", String.mk (a :: w')⟩, rest) :=
        pullTok_of_nextTok (nextTok_ws (by simp) hw
          (fun c' cs hc => (bndF_head hb c' cs hc).2.2))
      have hew : eatWhitespace orig (⟨"WHITESPACE", String.mk (a :: w')⟩, rest) = .ok st₁ :=
        eatWs_one rfl h1 hn1
      simp [parseRun,
        eat_ok "FLOAT" (⟨"FLOAT", String.mk (c :: '.' :: ds)⟩, a :: (w' ++ rest)) rfl hws, hew]
  | neg hf ihf =>
    rename_i fc
    intro orig rest fuel st₀ st₁ hb h0 h1 hfuel
    obtain ⟨fu, rfl⟩ : ∃ fu, fuel = fu + 1 := ⟨fuel - 1, by omega⟩
    have hd0 : pullTok orig (('-' :: fc) ++ rest) = .ok (⟨"MINUS", "-"⟩, fc ++ rest) := by
      rw [List.cons_append]; exact pullTok_of_nextTok nextTok_minus
    rw [hd0] at h0
    obtain rfl : st₀ = (⟨"MINUS", "-"⟩, fc ++ rest) := (Except.ok.inj h0).symm
    obtain ⟨stf, hstf, hstfn⟩ := factor_start hf orig hb
    have hfuF : 3 * fc.length + 1 ≤ fu := by
      simp only [List.length_cons] at hfuel; omega
    obtain ⟨a, ha, hwa⟩ := ihf orig rest fu stf st₁ hb hstf h1 hfuF
    have hn1 : st₁.1.name ≠ "WHITESPACE" := by
      rcases bndF_pull_name hb h1 with h | h | h | h | h | h <;> simp [h]
    refine ⟨.unaryOp ⟨"MINUS", "-"⟩ a, ?_, hwa⟩
    simp [parseRun, eat_ok "MINUS" (⟨"MINUS", "-"⟩, fc ++ rest) rfl hstf, ha, eatWs_skip hn1]
  | paren hw1 he hw ihe =>
    rename_i w1 e w
    intro orig rest fuel st₀ st₁ hb h0 h1 hfuel
    obtain ⟨fu, rfl⟩ : ∃ fu, fuel = fu + 1 := ⟨fuel - 1, by omega⟩
    have hd0 : pullTok orig (('(' :: (w1 ++ e ++ ')' :: w)) ++ rest) =
        .ok (⟨"LPAREN", "("⟩, (w1 ++ e ++ ')' :: w) ++ rest) := by
      rw [List.cons_append]; exact pullTok_of_nextTok nextTok_lparen
    rw [hd0] at h0
    obtain rfl : st₀ = (⟨"LPAREN", "("⟩, (w1 ++ e ++ ')' :: w) ++ rest) :=
      (Except.ok.inj h0).symm
    have hbE : BndE (')' :: (w ++ rest)) := Or.inr ⟨_, _, rfl, rfl⟩
    obtain ⟨stE, hstE, hstEn⟩ := expr_start he orig hbE
    have hpRT : pullTok orig (')' :: (w ++ rest)) = .ok (⟨"RPAREN", ")"⟩, w ++ rest) :=
      pullTok_of_nextTok nextTok_rparen
    have hfuE : 3 * e.length + 3 ≤ fu := by
      simp only [List.length_cons, List.length_append] at hfuel; omega
    obtain ⟨a, ha, hwa⟩ := ihe orig (')' :: (w ++ rest)) fu stE (⟨"RPAREN", ")"⟩, w ++ rest)
      hbE hstE hpRT hfuE
    have hn1 : st₁.1.name ≠ "WHITESPACE" := by
      rcases bndF_pull_name hb h1 with h | h | h | h | h | h <;> simp [h]
    -- trailing whitespace after the closing parenthesis
    have htail : ∃ stm, pullTok orig (w ++ rest) = .ok stm ∧ eatWhitespace orig stm = .ok st₁ := by
      cases w with
      | nil => exact ⟨st₁, by simpa using h1, eatWs_skip hn1⟩
      | cons b w' =>
        refine ⟨(⟨"WHITESPACE", String.mk (b :: w')⟩, rest), ?_, ?_⟩
        · exact pullTok_of_nextTok (nextTok_ws (by simp) hw
            (fun c cs hc => (bndF_head hb c cs hc).2.2))
        · exact eatWs_one rfl h1 hn1
    obtain ⟨stm, hstm, hewm⟩ := htail
    -- whitespace after the opening parenthesis
    have hrw : (w1 ++ e ++ ')' :: w) ++ rest = w1 ++ (e ++ ')' :: (w ++ rest)) := by
      simp [List.append_assoc]
    have hhead : ∃ stq, pullTok orig ((w1 ++ e ++ ')' :: w) ++ rest) = .ok stq ∧
        eatWhitespace orig stq = .ok stE := by
      rw [hrw]
      cases w1 with
      | nil => exact ⟨stE, by simpa using hstE, eatWs_skip hstEn⟩
      | cons b w1' =>
        obtain ⟨c0, cs0, he0, hc0⟩ := expr_head_char he
        refine ⟨(⟨"WHITESPACE", String.mk (b :: w1')⟩, e ++ ')' :: (w ++ rest)), ?_, ?_⟩
        · refine pullTok_of_nextTok (nextTok_ws (by simp) hw1 ?_)
          intro c cs hc
          rw [he0, List.cons_append] at hc
          injection hc with hc1 _
          subst hc1
          exact hc0
        · exact eatWs_one rfl hstE hstEn
    obtain ⟨stq, hstq, hewq⟩ := hhead
    rw [hrw] at hstq
    refine ⟨a, ?_, hwa⟩
    simp [parseRun,
      eat_ok "LPAREN" (⟨"LPAREN", "("⟩, w1 ++ (e ++ ')' :: (w ++ rest))) rfl hstq, hewq, ha,
      eatWs_skip (show ((⟨"RPAREN", ")"⟩, w ++ rest) : St).1.name ≠ "WHITESPACE" by simp),
      eat_ok "RPAREN" (⟨"RPAREN", ")"⟩, w ++ rest) rfl hstm, hewm]
  | term hf hgs ihf ihgs =>
    rename_i fc gs
    intro orig rest fuel st₀ st₁ hb h0 h1 hfuel
    obtain ⟨fu, rfl⟩ : ∃ fu, fuel = fu + 1 := ⟨fuel - 1, by omega⟩
    have hbF : BndF (gs ++ rest) := mgroups_bndF hgs hb
    have hmid : ∃ stm, pullTok orig (gs ++ rest) = .ok stm := by
      rcases mgroups_shape hgs with rfl | ⟨c, cs, rfl, hc⟩
      · exact ⟨st₁, by simpa using h1⟩
      · rcases hc with rfl | rfl
        · exact ⟨_, pullTok_of_nextTok nextTok_mul⟩
        · exact ⟨_, pullTok_of_nextTok nextTok_slash⟩
    obtain ⟨stm, hstm⟩ := hmid
    have h0' : pullTok orig (fc ++ (gs ++ rest)) = .ok st₀ := by
      rw [← List.append_assoc]; exact h0
    have hfuF : 3 * fc.length + 1 ≤ fu := by
      simp only [List.length_append] at hfuel; omega
    obtain ⟨af, haf, hwaf⟩ := ihf orig (gs ++ rest) fu st₀ stm hbF h0' hstm hfuF
    have hstmn : stm.1.name ≠ "WHITESPACE" := by
      rcases bndF_pull_name hbF hstm with h | h | h | h | h | h <;> simp [h]
    have hfuL : 3 * gs.length + 1 ≤ fu := by
      simp only [List.length_append] at hfuel; omega
    obtain ⟨a, ha, hwa⟩ := ihgs orig rest fu stm st₁ af hb hwaf hstm h1 hfuL
    refine ⟨a, ?_, hwa⟩
    simp [parseRun, haf, eatWs_skip hstmn, ha]
  | mnil =>
    intro orig rest fuel st₀ st₁ node hb hwn h0 h1 hfuel
    obtain ⟨f, rfl⟩ : ∃ f, fuel = f + 1 := ⟨fuel - 1, by omega⟩
    rw [List.nil_append] at h0
    rw [h0] at h1
    obtain rfl : st₀ = st₁ := Except.ok.inj h1
    have hname := bndT_pull_name hb h0
    refine ⟨node, ?_, hwn⟩
    have e1 : st₀.1.name ≠ "MUL" := by rcases hname with h | h | h | h <;> simp [h]
    have e2 : st₀.1.name ≠ "DIV" := by rcases hname with h | h | h | h <;> simp [h]
    simp [parseRun, e1, e2]
  | mcons hop hf hgs ihf ihgs =>
    rename_i op fc gs
    intro orig rest fuel st₀ st₁ node hb hwn h0 h1 hfuel
    obtain ⟨fu, rfl⟩ : ∃ fu, fuel = fu + 1 := ⟨fuel - 1, by omega⟩
    have hbF : BndF (gs ++ rest) := mgroups_bndF hgs hb
    obtain ⟨stf, hstf, hstfn⟩ := factor_start hf orig hbF
    have hmid : ∃ stm, pullTok orig (gs ++ rest) = .ok stm := by
      rcases mgroups_shape hgs with rfl | ⟨c, cs, rfl, hc⟩
      · exact ⟨st₁, by simpa using h1⟩
      · rcases hc with rfl | rfl
        · exact ⟨_, pullTok_of_nextTok nextTok_mul⟩
        · exact ⟨_, pullTok_of_nextTok nextTok_slash⟩
    obtain ⟨stm, hstm⟩ := hmid
    have hstf' : pullTok orig ((fc ++ gs) ++ rest) = .ok stf := by
      rw [List.append_assoc]; exact hstf
    have hfuF : 3 * fc.length + 1 ≤ fu := by
      simp only [List.length_cons, List.length_append] at hfuel; omega
    obtain ⟨af, haf, hwaf⟩ := ihf orig (gs ++ rest) fu stf stm hbF hstf hstm hfuF
    have hfuL : 3 * gs.length + 1 ≤ fu := by
      simp only [List.length_cons, List.length_append] at hfuel; omega
    rcases hop with rfl | rfl
    · have hd0 : pullTok orig (('*' :: (fc ++ gs)) ++ rest) =
          .ok (⟨"MUL", "*"⟩, (fc ++ gs) ++ rest) := by
        rw [List.cons_append]; exact pullTok_of_nextTok nextTok_mul
      rw [hd0] at h0
      obtain rfl : st₀ = (⟨"MUL", "*"⟩, (fc ++ gs) ++ rest) := (Except.ok.inj h0).symm
      obtain ⟨a, ha, hwa⟩ := ihgs orig rest fu stm st₁ (.binOp ⟨"MUL", "*"⟩ node af) hb
        ⟨Or.inr (Or.inr (Or.inl rfl)), hwn, hwaf⟩ hstm h1 hfuL
      refine ⟨a, ?_, hwa⟩
      simp [parseRun, eat_ok "MUL" (⟨"MUL", "*"⟩, fc ++ (gs ++ rest)) rfl hstf,
        eatWs_skip hstfn, haf, ha]
    · have hd0 : pullTok orig (('/' :: (fc ++ gs)) ++ rest) =
          .ok (⟨"DIV", "/"⟩, (fc ++ gs) ++ rest) := by
        rw [List.cons_append]; exact pullTok_of_nextTok nextTok_slash
      rw [hd0] at h0
      obtain rfl : st₀ = (⟨"DIV", "/"⟩, (fc ++ gs) ++ rest) := (Except.ok.inj h0).symm
      obtain ⟨a, ha, hwa⟩ := ihgs orig rest fu stm st₁ (.binOp ⟨"DIV", "/"⟩ node af) hb
        ⟨Or.inr (Or.inr (Or.inr rfl)), hwn, hwaf⟩ hstm h1 hfuL
      refine ⟨a, ?_, hwa⟩
      simp [parseRun, eat_ok "DIV" (⟨"DIV", "/"⟩, fc ++ (gs ++ rest)) rfl hstf,
        eatWs_skip hstfn, haf, ha]
  | anil =>
    intro orig rest fuel st₀ st₁ node hb hwn h0 h1 hfuel
    obtain ⟨f, rfl⟩ : ∃ f, fuel = f + 1 := ⟨fuel - 1, by omega⟩
    rw [List.nil_append] at h0
    rw [h0] at h1
    obtain rfl : st₀ = st₁ := Except.ok.inj h1
    have hname := bndE_pull_name hb h0
    refine ⟨node, ?_, hwn⟩
    have e1 : st₀.1.name ≠ "PLUS" := by rcases hname with h | h <;> simp [h]
    have e2 : st₀.1.name ≠ "MINUS" := by rcases hname with h | h <;> simp [h]
    simp [parseRun, e1, e2]
  | acons hop ht hgs iht ihgs =>
    rename_i op t gs
    intro orig rest fuel st₀ st₁ node hb hwn h0 h1 hfuel
    obtain ⟨fu, rfl⟩ : ∃ fu, fuel = fu + 1 := ⟨fuel - 1, by omega⟩
    have hbT : BndT (gs ++ rest) := agroups_bndT hgs hb
    obtain ⟨stt, hstt,ph⟩ := term_start ht orig hbT
    have hmid : ∃ stm, pullTok orig (gs ++ rest) = .ok stm := by
      rcases agroups_shape hgs with rfl | ⟨c, cs, rfl, hc⟩
      · exact ⟨st₁, by simpa using h1⟩
      · rcases hc with rfl | rfl
        · exact ⟨_, pullTok_of_nextTok nextTok_plus⟩
        · exact ⟨_, pullTok_of_nextTok nextTok_minus⟩
    obtain ⟨stm, hstm⟩ := hmid
    have hstt' : pullTok orig ((t ++ gs) ++ rest) = .ok stt := by
      rw [List.append_assoc]; exact hstt
    have hfuT : 3 * t.length + 2 ≤ fu := by
      simp only [List.length_cons, List.length_append] at hfuel; omega
    obtain ⟨at_, hat, hwat⟩ := iht orig (gs ++ rest) fu stt stm hbT hstt hstm hfuT
    have hfuL : 3 * gs.length + 2 ≤ fu := by
      simp only [List.length_cons, List.length_append] at hfuel; omega
    rcases hop with rfl | rfl
    · have hd0 : pullTok orig (('+' :: (t ++ gs)) ++ rest) =
          .ok (⟨"PLUS", "+"⟩, (t ++ gs) ++ rest) := by
        rw [List.cons_append]; exact pullTok_of_nextTok nextTok_plus
      rw [hd0] at h0
      obtain rfl : st₀ = (⟨"PLUS", "+"⟩, (t ++ gs) ++ rest) := (Except.ok.inj h0).symm
      obtain ⟨a, ha, hwa⟩ := ihgs orig rest fu stm st₁ (.binOp ⟨"PLUS", "+"⟩ node at_) hb
        ⟨Or.inl rfl, hwn, hwat⟩ hstm h1 hfuL
      refine ⟨a, ?_, hwa⟩
      simp [parseRun, eat_ok "PLUS" (⟨"PLUS", "+"⟩, t ++ (gs ++ rest)) rfl hstt,
        eatWs_skip ph, hat, ha]
    · have hd0 : pullTok orig (('-' :: (t ++ gs)) ++ rest) =
          .ok (⟨"MINUS", "-"⟩, (t ++ gs) ++ rest) := by
        rw [List.cons_append]; exact pullTok_of_nextTok nextTok_minus
      rw [hd0] at h0
      obtain rfl : st₀ = (⟨"MINUS", "-"⟩, (t ++ gs) ++ rest) := (Except.ok.inj h0).symm
      obtain ⟨a, ha, hwa⟩ := ihgs orig rest fu stm st₁ (.binOp ⟨"MINUS", "-"⟩ node at_) hb
        ⟨Or.inr (Or.inl rfl), hwn, hwat⟩ hstm h1 hfuL
      refine ⟨a, ?_, hwa⟩
      simp [parseRun, eat_ok "MINUS" (⟨"MINUS", "-"⟩, t ++ (gs ++ rest)) rfl hstt,
        eatWs_skip ph, hat, ha]
  | expr ht hgs iht ihgs =>
    rename_i t gs
    intro orig rest fuel st₀ st₁ hb h0 h1 hfuel
    obtain ⟨fu, rfl⟩ : ∃ fu, fuel = fu + 1 := ⟨fuel - 1, by omega⟩
    have hbT : BndT (gs ++ rest) := agroups_bndT hgs hb
    have hmid : ∃ stm, pullTok orig (gs ++ rest) = .ok stm := by
      rcases agroups_shape hgs with rfl | ⟨c, cs, rfl, hc⟩
      · exact ⟨st₁, by simpa using h1⟩
      · rcases hc with rfl | rfl
        · exact ⟨_, pullTok_of_nextTok nextTok_plus⟩
        · exact ⟨_, pullTok_of_nextTok nextTok_minus⟩
    obtain ⟨stm, hstm⟩ := hmid
    have h0' : pullTok orig (t ++ (gs ++ rest)) = .ok st₀ := by
      rw [← List.append_assoc]; exact h0
    have hfuT : 3 * t.length + 2 ≤ fu := by
      simp only [List.length_append] at hfuel; omega
    obtain ⟨at_, hat, hwat⟩ := iht orig (gs ++ rest) fu st₀ stm hbT h0' hstm hfuT
    have hstmn : stm.1.name ≠ "WHITESPACE" := by
      rcases bndT_pull_name hbT hstm with h | h | h | h <;> simp [h]
    have hfuL : 3 * gs.length + 2 ≤ fu := by
      simp only [List.length_append] at hfuel; omega
    obtain ⟨a, ha, hwa⟩ := ihgs orig rest fu stm st₁ at_ hb hwat hstm h1 hfuL
    refine ⟨a, ?_, hwa⟩
    simp [parseRun, hat, eatWs_skip hstmn, ha]

theorem isWsStr_nil : IsWsStr [] := by intro c hc; cases hc

theorem IsWsStr.append {w1 w2 : List Char} (h1 : IsWsStr w1) (h2 : IsWsStr w2) :
    IsWsStr (w1 ++ w2) := by
  intro c hc
  rcases List.mem_append.mp hc with h | h
  · exact h1 c h
  · exact h2 c h

/-- Trailing whitespace can be absorbed into a normalised derivation. -/
theorem normG_absorb {sym : GSym} {s : List Char} (h : NormG sym s) : AbsorbProp sym s := by
  induction h with
  | expr ht hgs iht ihgs =>
    intro w hw
    rcases agroups_shape hgs with rfl | ⟨c, cs, hcs, hc⟩
    · have h2 : NormG .expr ((_ ++ w) ++ []) := NormG.expr (iht w hw) NormG.anil
      simpa using h2
    · have h2 : NormG .expr (_ ++ (_ ++ w)) := NormG.expr ht (ihgs w hw (by simp [hcs]))
      simpa [List.append_assoc] using h2
  | anil => intro w hw hne; exact absurd rfl hne
  | acons hop ht hgs iht ihgs =>
    intro w hw _
    rcases agroups_shape hgs with rfl | ⟨c, cs, hcs, hc⟩
    · have h2 := NormG.acons hop (iht w hw) NormG.anil
      simpa using h2
    · have h2 := NormG.acons hop ht (ihgs w hw (by simp [hcs]))
      simpa [List.append_assoc] using h2
  | term hf hgs ihf ihgs =>
    intro w hw
    rcases mgroups_shape hgs with rfl | ⟨c, cs, hcs, hc⟩
    · have h2 : NormG .term ((_ ++ w) ++ []) := NormG.term (ihf w hw) NormG.mnil
      simpa using h2
    · have h2 : NormG .term (_ ++ (_ ++ w)) := NormG.term hf (ihgs w hw (by simp [hcs]))
      simpa [List.append_assoc] using h2
  | mnil => intro w hw hne; exact absurd rfl hne
  | mcons hop hf hgs ihf ihgs =>
    intro w hw _
    rcases mgroups_shape hgs with rfl | ⟨c, cs, hcs, hc⟩
    · have h2 := NormG.mcons hop (ihf w hw) NormG.mnil
      simpa using h2
    · have h2 := NormG.mcons hop hf (ihgs w hw (by simp [hcs]))
      simpa [List.append_assoc] using h2
  | int hds hw' =>
    intro w hw
    have h2 := NormG.int hds (hw'.append hw)
    simpa [List.append_assoc] using h2
  | flt hc hds hw' =>
    intro w hw
    have h2 := NormG.flt hc hds (hw'.append hw)
    simpa [List.append_assoc] using h2
  | neg hf ihf =>
    intro w hw
    have h2 := NormG.neg (ihf w hw)
    simpa using h2
  | paren hw1 he hw' ihe =>
    intro w hw
    have h2 := NormG.paren hw1 he (hw'.append hw)
    simpa [List.append_assoc] using h2

/-- Every §4.2 derivation normalises: whitespace runs can be reattached as
trailing whitespace of the preceding factor. -/
theorem specG_norm {sym : GSym} {s : List Char} (h : SpecG sym s) : NormProp sym s := by
  induction h with
  | expr ht hgs iht ihgs =>
    obtain ⟨w, t', rfl, hw, hn⟩ := ihgs
    have habs : NormG .term (_ ++ w) := normG_absorb iht w hw
    have h2 := NormG.expr habs hn
    show NormG .expr _
    simpa [List.append_assoc] using h2
  | anil => exact ⟨[], [], rfl, isWsStr_nil, NormG.anil⟩
  | acons hw hop ht hgs iht ihgs =>
    rename_i w op t gs
    obtain ⟨w2, t2, rfl, hw2, hn2⟩ := ihgs
    have habs : NormG .term (t ++ w2) := normG_absorb iht w2 hw2
    refine ⟨w, op :: ((t ++ w2) ++ t2), ?_, hw, NormG.acons hop habs hn2⟩
    simp [List.append_assoc]
  | term hf hgs ihf ihgs =>
    obtain ⟨w, t', rfl, hw, hn⟩ := ihgs
    have habs : NormG .factor (_ ++ w) := normG_absorb ihf w hw
    have h2 := NormG.term habs hn
    show NormG .term _
    simpa [List.append_assoc] using h2
  | mnil => exact ⟨[], [], rfl, isWsStr_nil, NormG.mnil⟩
  | mcons hw hop hf hgs ihf ihgs =>
    rename_i w op f gs
    obtain ⟨w2, t2, rfl, hw2, hn2⟩ := ihgs
    have habs : NormG .factor (f ++ w2) := normG_absorb ihf w2 hw2
    refine ⟨w, op :: ((f ++ w2) ++ t2), ?_, hw, NormG.mcons hop habs hn2⟩
    simp [List.append_assoc]
  | int hds =>
    have h2 := NormG.int hds isWsStr_nil
    simpa using h2
  | flt hc hds =>
    have h2 := NormG.flt hc hds isWsStr_nil
    simpa using h2
  | neg hf ihf => exact NormG.neg ihf
  | paren hw1 he hw2 ihe =>
    have habs : NormG .expr (_ ++ _) := normG_absorb ihe _ hw2
    have h2 := NormG.paren hw1 habs isWsStr_nil
    show NormG .factor _
    simpa [List.append_assoc] using h2
  | ftrail hf hw ihf => exact normG_absorb ihf _ hw

/-- Evaluation of a well-formed tree either returns a value or raises
exactly the division-by-zero error. -/
theorem visit_wf : ∀ {a : Ast}, WfAst a →
    (∃ v, visit a = .ok v) ∨ visit a = .error .divisionByZero := by
  intro a
  induction a with
  | number tok v => exact fun _ => Or.inl ⟨v, rfl⟩
  | binOp op l r ihl ihr =>
    intro h
    obtain ⟨hop, hwl, hwr⟩ := h
    have hf : ∃ f, operators op.name = some f ∧
        ∀ x y, (∃ v, f x y = .ok v) ∨ f x y = .error .divisionByZero := by
      rcases hop with h | h | h | h <;> rw [h]
      · exact ⟨fun x y => .ok (addV x y), rfl, fun x y => Or.inl ⟨addV x y, rfl⟩⟩
      · exact ⟨fun x y => .ok (subV x y), rfl, fun x y => Or.inl ⟨subV x y, rfl⟩⟩
      · exact ⟨fun x y => .ok (mulV x y), rfl, fun x y => Or.inl ⟨mulV x y, rfl⟩⟩
      · refine ⟨divV, rfl, fun x y => ?_⟩
        by_cases hz : toRat y = 0
        · exact Or.inr (by simp [divV, hz])
        · exact Or.inl ⟨.floatV (toRat x / toRat y), by simp [divV, hz]⟩
    obtain ⟨f, hfeq, hfprop⟩ := hf
    rcases ihl hwl with ⟨vl, hvl⟩ | hvl
    · rcases ihr hwr with ⟨vr, hvr⟩ | hvr
      · rcases hfprop vl vr with ⟨v, hv⟩ | hv
        · exact Or.inl ⟨v, by simp [visit, hfeq, hvl, hvr, hv]⟩
        · exact Or.inr (by simp [visit, hfeq, hvl, hvr, hv])
      · exact Or.inr (by simp [visit, hfeq, hvl, hvr])
    · exact Or.inr (by simp [visit, hfeq, hvl])
  | unaryOp op e ihe =>
    intro h
    rcases ihe h with ⟨v, hv⟩ | hv
    · exact Or.inl ⟨visit.negV v, by simp [visit, hv]⟩
    · exact Or.inr (by simp [visit, hv])

theorem firstTok_eq {orig : List Char} (hne : orig ≠ []) :
    firstTok orig = pullTok orig orig := by
  unfold firstTok pullTok
  cases h : nextTok orig with
  | some p => rfl
  | none => simp [List.isEmpty_iff, hne]

/-- Main completeness corollary: on every §4.2-conforming input the whole
pipeline returns a value unless evaluation divides by zero. -/
theorem evaluate_conforming (s : String) (h : SpecG .expr s.data) :
    (∃ v, evaluate s = .ok v) ∨ evaluate s = .error .divisionByZero := by
  have hn : NormG .expr s.data := specG_norm h
  obtain ⟨c0, cs0, he0, _⟩ := expr_head_char hn
  have hne : s.data ≠ [] := by rw [he0]; simp
  have hbE : BndE ([] : List Char) := Or.inl rfl
  obtain ⟨st₀, hst₀, _⟩ := expr_start hn s.data hbE
  rw [List.append_nil] at hst₀
  obtain ⟨a, ha, hwa⟩ := normG_parseOk hn s.data [] (3 * s.data.length + 3) st₀
    (⟨"EOF", ""⟩, []) hbE (by simpa using hst₀) pullTok_nil (le_refl _)
  have hparse : parse s = .ok (a, (⟨"EOF", ""⟩, [])) := by
    unfold parse
    rw [firstTok_eq hne, hst₀]
    exact ha
  rcases visit_wf hwa with ⟨v, hv⟩ | hv
  · exact Or.inl ⟨v, by simp [evaluate, hparse, hv]⟩
  · exact Or.inr (by simp [evaluate, hparse, hv])

/-! ## Helper lemmas for the claims -/

theorem nextTok_ws_any {a : Char} (ha : isSpaceC a = true) (l : List Char) :
    nextTok (a :: l) =
      some (⟨"WHITESPACE", String.mk (a :: l.takeWhile isSpaceC)⟩, l.dropWhile isSpaceC) := by
  have h := space_facts ha
  cases l with
  | nil =>
    simp [nextTok, matchFloat, matchPlus, matchLit, List.span_eq_take_drop,
      List.takeWhile_cons, List.dropWhile_cons, ha, h.1, h.2.1, h.2.2.1]
  | cons b bs =>
    simp [nextTok, matchFloat, matchPlus, matchLit, List.span_eq_take_drop,
      List.takeWhile_cons, List.dropWhile_cons, ha, h.1, h.2.1, h.2.2.1]

/-- A unary minus whose operand position holds whitespace reaches the
`Unrecognized token` branch of `parse_factor`. -/
theorem parseRun_minus_ws (orig : List Char) (k : Nat) {a : Char} (r : List Char)
    (hsa : isSpaceC a = true) :
    parseRun orig (k + 4) .expr (⟨"MINUS", "-"⟩, a :: r) =
      .error (.unrecognized ⟨"WHITESPACE", String.mk (a :: r.takeWhile isSpaceC)⟩) := by
  simp [parseRun, eat_ok "MINUS" (⟨"MINUS", "-"⟩, a :: r) rfl
    (pullTok_of_nextTok (nextTok_ws_any hsa r))]

theorem addV_isFloat {x y : Value} (h : x.isFloat = true ∨ y.isFloat = true) :
    (addV x y).isFloat = true := by
  cases x <;> cases y <;> simp_all [addV, Value.isFloat]

theorem subV_isFloat {x y : Value} (h : x.isFloat = true ∨ y.isFloat = true) :
    (subV x y).isFloat = true := by
  cases x <;> cases y <;> simp_all [subV, Value.isFloat]

theorem mulV_isFloat {x y : Value} (h : x.isFloat = true ∨ y.isFloat = true) :
    (mulV x y).isFloat = true := by
  cases x <;> cases y <;> simp_all [mulV, Value.isFloat]

/-! ## Claim C2 -/

/-- C2: `evaluate "-5"` succeeds with `-5`, while any input placing
whitespace between a unary minus and the rest of the input fails with a
syntax error (the `Unrecognized token` branch of `parse_factor`). -/
theorem claim2_unary_minus_spacing :
    evaluate "-5" = .ok (.intV (-5)) ∧
    ∀ w t : List Char, w ≠ [] → (∀ c ∈ w, isSpaceC c = true) →
      ∃ e, evaluate (String.mk ('-' :: (w ++ t))) = .error e ∧ e.isSyntax = true := by
  refine ⟨by decide, ?_⟩
  intro w t hne hws
  obtain ⟨a, w', rfl⟩ : ∃ a w', w = a :: w' := by
    cases w with
    | nil => exact absurd rfl hne
    | cons a w' => exact ⟨a, w', rfl⟩
  have hsa : isSpaceC a = true := hws a (by simp)
  refine ⟨.unrecognized ⟨"WHITESPACE", String.mk (a :: (w' ++ t).takeWhile isSpaceC)⟩, ?_, rfl⟩
  have hlen : ('-' :: (a :: (w' ++ t))).length = (w' ++ t).length + 2 := by simp
  obtain ⟨k, hk⟩ : ∃ k, 3 * ('-' :: (a :: (w' ++ t))).length + 3 = k + 4 :=
    ⟨3 * (w' ++ t).length + 5, by rw [hlen]; omega⟩
  have hfe : firstTok ('-' :: (a :: (w' ++ t))) = .ok (⟨"MINUS", "-"⟩, a :: (w' ++ t)) := by
    simp [firstTok, nextTok_minus]
  simp only [evaluate, parse, List.cons_append, hfe, hk,
    parseRun_minus_ws ('-' :: (a :: (w' ++ t))) k (w' ++ t) hsa]

/-- C2 witness: the input `"- 5"` (a space between the unary minus and its
operand). -/
theorem claim2_unary_minus_spacing_witness :
    ∃ e, evaluate (String.mk ('-' :: ([' '] ++ ['5']))) = .error e ∧ e.isSyntax = true :=
  claim2_unary_minus_spacing.2 [' '] ['5'] (by simp) (by decide)

/-! ## Claim C1 -/

/-- C1 counterexample: `"2 3"` is a complete expression followed by a
residual non-whitespace token, yet `evaluate` returns the value of the
leading expression instead of raising `SyntaxError`: `Parser.parse` never
checks that the lookahead is `EOF`, and the lazy tokenizer is never pulled
past the residual token. -/
theorem claim1_counterexample : evaluate "2 3" = .ok (.intV 2) := by decide

/-- C1 (amended): a successful parse may leave residual tokens; `evaluate`
returns the value of the leading complete expression, e.g. `"2 3"` and
`"2)"` both evaluate to `2`, and after parsing `"2 3"` the lookahead still
holds the residual `INTEGER "3"` token. -/
theorem claim1_trailing_tokens_accepted :
    evaluate "2 3" = .ok (.intV 2) ∧ evaluate "2)" = .ok (.intV 2) ∧
    parse "2 3" = .ok (.number ⟨"INTEGER", "2"⟩ (.intV 2), ⟨"INTEGER", "3"⟩, []) := by
  refine ⟨by decide, by decide, by decide⟩

/-! ## Claim C3 -/

/-- C3: applying the division operator to a divisor equal to exactly zero
raises `ZeroDivisionError` (never a silent infinity/NaN), both at the
evaluator level and end to end for `evaluate "1/0"`. -/
theorem claim3_division_by_zero :
    (∀ (op : Token) (l r : Ast) (vl vr : Value), op.name = "DIV" →
      visit l = .ok vl → visit r = .ok vr → toRat vr = 0 →
      visit (.binOp op l r) = .error .divisionByZero) ∧
    evaluate "1/0" = .error .divisionByZero := by
  constructor
  · intro op l r vl vr hop hl hr hz
    simp [visit, operators, hop, hl, hr, divV, hz]
  · decide

/-- C3 witness: `(1 / 0)` at the evaluator level. -/
theorem claim3_division_by_zero_witness :
    visit (.binOp ⟨"DIV", "/"⟩ (.number ⟨"INTEGER", "1"⟩ (.intV 1))
      (.number ⟨"INTEGER", "0"⟩ (.intV 0))) = .error .divisionByZero :=
  claim3_division_by_zero.1 _ _ _ (.intV 1) (.intV 0) rfl rfl rfl (by simp [toRat])

/-! ## Claim C4 -/

/-- C4: `*` and `/` bind tighter than `+` and `-`: the parse tree of
`"2 / 2 + 3 * 4 - 6"` groups `2 / 2` and `3 * 4` below the additive
operators, and the value is `7`. -/
theorem claim4_precedence :
    parse "2 / 2 + 3 * 4 - 6" = .ok (.binOp ⟨"MINUS", "-"⟩
      (.binOp ⟨"PLUS", "+"⟩
        (.binOp ⟨"DIV", "/"⟩ (.number ⟨"INTEGER", "2"⟩ (.intV 2))
          (.number ⟨"INTEGER", "2"⟩ (.intV 2)))
        (.binOp ⟨"MUL", "*"⟩ (.number ⟨"INTEGER", "3"⟩ (.intV 3))
          (.number ⟨"INTEGER", "4"⟩ (.intV 4))))
      (.number ⟨"INTEGER", "6"⟩ (.intV 6)), ⟨"EOF", ""⟩, []) ∧
    evaluate "2 / 2 + 3 * 4 - 6" = .ok (.floatV 7) := by
  have hp : parse "2 / 2 + 3 * 4 - 6" = .ok (.binOp ⟨"MINUS", "-"⟩
      (.binOp ⟨"PLUS", "+"⟩
        (.binOp ⟨"DIV", "/"⟩ (.number ⟨"INTEGER", "2"⟩ (.intV 2))
          (.number ⟨"INTEGER", "2"⟩ (.intV 2)))
        (.binOp ⟨"MUL", "*"⟩ (.number ⟨"INTEGER", "3"⟩ (.intV 3))
          (.number ⟨"INTEGER", "4"⟩ (.intV 4))))
      (.number ⟨"INTEGER", "6"⟩ (.intV 6)), ⟨"EOF", ""⟩, []) := by decide
  refine ⟨hp, ?_⟩
  simp [evaluate, hp, visit, operators, divV, addV, subV, mulV, toRat]
  norm_num

/-! ## Claim C5 -/

/-- C5: equal-precedence operators are left-associative: `"2 - 3 - 4"`
parses as `(2 - 3) - 4` and evaluates to `-5`, not `3`. -/
theorem claim5_left_associativity :
    parse "2 - 3 - 4" = .ok (.binOp ⟨"MINUS", "-"⟩
      (.binOp ⟨"MINUS", "-"⟩ (.number ⟨"INTEGER", "2"⟩ (.intV 2))
        (.number ⟨"INTEGER", "3"⟩ (.intV 3)))
      (.number ⟨"INTEGER", "4"⟩ (.intV 4)), ⟨"EOF", ""⟩, []) ∧
    evaluate "2 - 3 - 4" = .ok (.intV (-5)) := by
  refine ⟨by decide, by decide⟩

/-! ## Claim C6 -/

/-- C6 counterexample: `"2)@"` contains a position (offset 2, the `@`) where
no lexical pattern matches, yet `evaluate` returns `2` rather than raising
`TokenizerError`: the lazy token generator is never pulled past the `)` that
ends the leading expression. -/
theorem claim6_counterexample :
    nextTok ['@'] = none ∧ evaluate "2)@" = .ok (.intV 2) := by
  refine ⟨by decide, by decide⟩

/-- C6 (amended): when the parser's token demand reaches a position where no
lexical pattern matches, `evaluate` raises `TokenizerError` carrying the
stopping offset, the input length and the input text: so for `"2 + @"`
(stuck at offset 4 of 5) and for `"12.5"` (stuck at the dot, offset 2 of 4,
because `FLOAT` requires exactly one digit before the dot and `INTEGER`
munches both digits). -/
theorem claim6_tokenizer_errors :
    evaluate "2 + @" = .error (.tokenizer 4 5 "2 + @") ∧
    evaluate "12.5" = .error (.tokenizer 2 4 "12.5") := by
  refine ⟨by decide, by decide⟩

/-! ## Claim C7 -/

/-- C7: division is true division — `evaluate "10/4"` is the float `2.5` —
and every binary operation of the `operators` table with a float operand
returns a float. -/
theorem claim7_true_division :
    evaluate "10/4" = .ok (.floatV (5 / 2)) ∧
    ∀ (name : String) (f : Value → Value → Except Err Value) (x y v : Value),
      operators name = some f → (x.isFloat = true ∨ y.isFloat = true) →
      f x y = .ok v → v.isFloat = true := by
  constructor
  · have hp : parse "10/4" = .ok (.binOp ⟨"DIV", "/"⟩
        (.number ⟨"INTEGER", "10"⟩ (.intV 10)) (.number ⟨"INTEGER", "4"⟩ (.intV 4)),
        ⟨"EOF", ""⟩, []) := by decide
    simp [evaluate, hp, visit, operators, divV, toRat]
    norm_num
  · intro name f x y v hf hxy hv
    by_cases h1 : name = "PLUS"
    · subst h1
      rw [show operators "PLUS" = some (fun x y => .ok (addV x y)) from rfl] at hf
      obtain rfl : f = _ := (Option.some.inj hf).symm
      obtain rfl : v = addV x y := (Except.ok.inj hv).symm
      exact addV_isFloat hxy
    by_cases h2 : name = "MINUS"
    · subst h2
      rw [show operators "MINUS" = some (fun x y => .ok (subV x y)) from rfl] at hf
      obtain rfl : f = _ := (Option.some.inj hf).symm
      obtain rfl : v = subV x y := (Except.ok.inj hv).symm
      exact subV_isFloat hxy
    by_cases h3 : name = "MUL"
    · subst h3
      rw [show operators "MUL" = some (fun x y => .ok (mulV x y)) from rfl] at hf
      obtain rfl : f = _ := (Option.some.inj hf).symm
      obtain rfl : v = mulV x y := (Except.ok.inj hv).symm
      exact mulV_isFloat hxy
    by_cases h4 : name = "DIV"
    · subst h4
      rw [show operators "DIV" = some divV from rfl] at hf
      obtain rfl : f = divV := (Option.some.inj hf).symm
      by_cases hz : toRat y = 0
      · simp [divV, hz] at hv
      · simp only [divV, if_neg hz] at hv
        obtain rfl : v = .floatV (toRat x / toRat y) := (Except.ok.inj hv).symm
        rfl
    · simp [operators, h1, h2, h3, h4] at hf

/-- C7 witness: mixing the int `1` with the float `2` under `PLUS` yields a
float. -/
theorem claim7_true_division_witness :
    (addV (.intV 1) (.floatV 2)).isFloat = true :=
  claim7_true_division.2 "PLUS" (fun x y => .ok (addV x y)) (.intV 1) (.floatV 2)
    (addV (.intV 1) (.floatV 2)) rfl (Or.inr rfl) rfl

/-! ## Claim C8 -/

/-- C8: unary minus binds tighter than every binary operator and may follow
a binary operator directly: `evaluate "-2+3" = 1`, and `"2--3"` parses as
`2 - (-3)` and evaluates to `5`. -/
theorem claim8_unary_minus :
    evaluate "-2+3" = .ok (.intV 1) ∧ evaluate "2--3" = .ok (.intV 5) ∧
    parse "2--3" = .ok (.binOp ⟨"MINUS", "-"⟩ (.number ⟨"INTEGER", "2"⟩ (.intV 2))
      (.unaryOp ⟨"MINUS", "-"⟩ (.number ⟨"INTEGER", "3"⟩ (.intV 3))), ⟨"EOF", ""⟩, []) := by
  refine ⟨by decide, by decide, by decide⟩

/-! ## Claim C9 -/

/-- C9 counterexample: `"1/0"` conforms to the §4.2 grammar (digits and a
division sign), yet `evaluate` raises `ZeroDivisionError` instead of
returning a number. -/
theorem claim9_counterexample :
    SpecG .expr "1/0".data ∧ evaluate "1/0" = .error .divisionByZero := by
  constructor
  · have h1 : IsDigitStr ['1'] := ⟨by simp, by decide⟩
    have h0 : IsDigitStr ['0'] := ⟨by simp, by decide⟩
    have hm : SpecG .mgroups ['/', '0'] := by
      have := SpecG.mcons (w := []) isWsStr_nil (Or.inr rfl) (SpecG.int h0) SpecG.mnil
      simpa using this
    have ht : SpecG .term ['1', '/', '0'] := by
      have := SpecG.term (SpecG.int h1) hm
      simpa using this
    have he : SpecG .expr ['1', '/', '0'] := by
      have := SpecG.expr ht SpecG.anil
      simpa using this
    exact he
  · decide

/-- C9 (amended): for every input conforming to the grammar of §4.2,
`evaluate` terminates and either returns a number or raises
`ZeroDivisionError` (when a division by exactly zero is evaluated); it
never raises `TokenizerError` or `SyntaxError`. -/
theorem claim9_conforming_inputs (s : String) (h : SpecG .expr s.data) :
    (∃ v, evaluate s = .ok v) ∨ evaluate s = .error .divisionByZero :=
  evaluate_conforming s h

/-- C9 witness: the conforming input `"127"`. -/
theorem claim9_conforming_inputs_witness :
    (∃ v, evaluate "127" = .ok v) ∨ evaluate "127" = .error .divisionByZero := by
  refine claim9_conforming_inputs "127" ?_
  have h1 : IsDigitStr ['1', '2', '7'] := ⟨by simp, by decide⟩
  have ht : SpecG .term ['1', '2', '7'] := by
    have := SpecG.term (SpecG.int h1) SpecG.mnil
    simpa using this
  have he : SpecG .expr ['1', '2', '7'] := by
    have := SpecG.expr ht SpecG.anil
    simpa using this
  exact he

/-! ## Claim C10 -/

/-- C10: for every input, the module-level `calc` raises `NameError`
(`Evaluator` is unbound in the module globals) and never returns a value. -/
theorem claim10_calc_name_error (text : String) :
    «calc» text = .error (.nameError "Evaluator") := by
  simp [«calc», moduleGlobals]

/-- C10 witness. -/
theorem claim10_calc_name_error_witness :
    «calc» "" = .error (.nameError "Evaluator") :=
  claim10_calc_name_error ""
